import Mathlib

/-!
Shallow embedding of the nodestream interpretation-dispatch and streaming
filter engine, together with the pipeline-definition serialization helpers
and the progress reporter, translated from the Python sources under
`src/nodestream/`.  Components of the repository that the sources reference
but that are not part of the provided tree (the `value_providers` module,
the schema-expansion coordinator, `enumerate_async`) are modelled from the
specification and marked as such in their doc comments.
-/

namespace Nodestream

/-! ## Values, normalization and value providers -/

/-- Modelled from the spec: the `value_providers` module is not under `src/`.
Per the spec a normalization is "an enumerated collection of named operations,
e.g. lowercase, strip-whitespace" applied to a resolved value before
comparison.  We model the two named operations the spec enumerates. -/
structure Normalization where
  do_lowercase : Bool := false
  do_trim : Bool := false
deriving Repr, DecidableEq

/-- Modelled from the spec: apply the configured normalization operations to a
resolved value. -/
def Normalization.apply (n : Normalization) (s : String) : String :=
  let s := if n.do_lowercase then s.toLower else s
  if n.do_trim then s.trim else s

/-- Modelled from the spec: a `ValueProvider` "resolves a scalar result from a
record plus ambient context"; it is deterministic for a fixed context, so we
embed it as a function from the context type to the resolved value. -/
structure ValueProvider (κ : Type) where
  resolve : κ → String

/-- Modelled from the spec: `normalize_single_value(context, normalization)`
"resolves one value from the context and applies the configured normalization
transform set". -/
def ValueProvider.normalize_single_value (vp : ValueProvider κ) (context : κ)
    (normalization : Normalization) : String :=
  normalization.apply (vp.resolve context)

/-- Modelled from the spec: an ephemeral per-record structure carrying the
record; the second constructor argument at the call sites in `filters.py` is
always `None`, so it is omitted from the model. -/
structure ProviderContext (ρ : Type) where
  document : ρ

/-! ## Stream items and the `Filter` step (`src/nodestream/pipeline/filters.py`) -/

/-- An item flowing through a pipeline step: either the singleton `Flush`
control signal or a data record. -/
inductive Item (ρ : Type) where
  | flush
  | data (record : ρ)
deriving Repr, DecidableEq

/-- Errors a Python-level call may raise; used to embed fallible calls. -/
inductive PyErr where
  | noneNotCallable
  | predicateError
deriving Repr, DecidableEq

/-- `Filter.process_record`: `if record is Flush or not await self.filter_record(record):
yield record`.  The predicate is embedded as a fallible function so that the
short-circuit of the `or` (the predicate is not called on `Flush`) is
observable: on `Flush` the result never depends on the predicate. -/
def Filter.process_record (filter_record : Item ρ → Except ε Bool)
    (record : Item ρ) : Except ε (List (Item ρ)) :=
  match record with
  | .flush => .ok [.flush]
  | .data r => do
      let should_drop ← filter_record (.data r)
      pure (if should_drop then [] else [.data r])

/-- Running one item through a chain of `Filter` steps: each step's outputs
feed the next step, outputs concatenated in order. -/
def Filter.run_chain (predicates : List (Item ρ → Except ε Bool))
    (record : Item ρ) : Except ε (List (Item ρ)) :=
  match predicates with
  | [] => .ok [record]
  | p :: rest => do
      let outs ← Filter.process_record p record
      let results ← outs.mapM (Filter.run_chain rest)
      pure results.flatten

/-! ## Matchers (`src/nodestream/pipeline/filters.py`) -/

/-- `ValueMatcher`: a subject value provider, a list of possibility providers
and a normalization configuration. -/
structure ValueMatcher (κ : Type) where
  value_provider : ValueProvider κ
  possibilities : List (ValueProvider κ)
  normalization : Normalization

/-- `ValueMatcher.does_match`: resolve and normalize the subject once, then
check whether any possibility, normalized with the same configuration, equals
it. -/
def ValueMatcher.does_match (m : ValueMatcher κ) (context : κ) : Bool :=
  let actual_value := m.value_provider.normalize_single_value context m.normalization
  m.possibilities.any fun possibility_provider =>
    possibility_provider.normalize_single_value context m.normalization == actual_value

/-- `ValuesMatchPossibilitiesFilter`: holds a list of value matchers. -/
structure ValuesMatchPossibilitiesFilter (ρ : Type) where
  value_matchers : List (ValueMatcher (ProviderContext ρ))

/-- `ValuesMatchPossibilitiesFilter.filter_record`: build a `ProviderContext`
from the record and return `not all(matcher.does_match(...))`. -/
def ValuesMatchPossibilitiesFilter.filter_record
    (f : ValuesMatchPossibilitiesFilter ρ) (item : ρ) : Bool :=
  let context_from_record : ProviderContext ρ := ⟨item⟩
  !(f.value_matchers.all fun matcher => matcher.does_match context_from_record)

/-- `ExcludeWhenValuesMatchPossibilities`: wraps an inner
`ValuesMatchPossibilitiesFilter`. -/
structure ExcludeWhenValuesMatchPossibilities (ρ : Type) where
  inner : ValuesMatchPossibilitiesFilter ρ

/-- `ExcludeWhenValuesMatchPossibilities.filter_record`:
`return not await self.inner.filter_record(record)`. -/
def ExcludeWhenValuesMatchPossibilities.filter_record
    (f : ExcludeWhenValuesMatchPossibilities ρ) (record : ρ) : Bool :=
  !(f.inner.filter_record record)

/-! ## Regular expressions and `RegexMatcher`

The Python source compiles the configured pattern with `re.compile` and tests
it with `regex.match`, i.e. matching anchored at the start of the string but
not required to span it.  The regex engine itself is external library code; we
embed it as a standard Brzozowski-derivative matcher over a regex syntax, with
`matchFromStart` as the embedding of `regex.match(s) is not None`. -/

/-- Regular-expression syntax. -/
inductive RE where
  | emptyset
  | eps
  | ch (c : Char)
  | dot
  | alt (r₁ r₂ : RE)
  | cat (r₁ r₂ : RE)
  | star (r : RE)
deriving Repr, DecidableEq

/-- Does the regex accept the empty string? -/
def RE.nullable : RE → Bool
  | .emptyset => false
  | .eps => true
  | .ch _ => false
  | .dot => false
  | .alt r₁ r₂ => r₁.nullable || r₂.nullable
  | .cat r₁ r₂ => r₁.nullable && r₂.nullable
  | .star _ => true

/-- Brzozowski derivative of a regex by a character. -/
def RE.deriv : RE → Char → RE
  | .emptyset, _ => .emptyset
  | .eps, _ => .emptyset
  | .ch c, a => if c = a then .eps else .emptyset
  | .dot, _ => .eps
  | .alt r₁ r₂, a => .alt (r₁.deriv a) (r₂.deriv a)
  | .cat r₁ r₂, a =>
      if r₁.nullable then .alt (.cat (r₁.deriv a) r₂) (r₂.deriv a)
      else .cat (r₁.deriv a) r₂
  | .star r, a => .cat (r.deriv a) (.star r)

/-- The regex matches the whole character list. -/
def RE.matchesExact (r : RE) (s : List Char) : Bool :=
  (s.foldl RE.deriv r).nullable

/-- The regex matches some prefix of the character list, i.e. Python's
`regex.match(s) is not None`. -/
def RE.matchFromStart (r : RE) : List Char → Bool
  | [] => r.nullable
  | c :: cs => r.nullable || (r.deriv c).matchFromStart cs

/-- `RegexMatcher`: value provider, compiled regex, include flag and
normalization configuration.  The Python attribute `include` is a reserved
word here, so the field is named `inclusion`. -/
structure RegexMatcher (κ : Type) where
  value_provider : ValueProvider κ
  regex : RE
  inclusion : Bool
  normalization : Normalization

/-- `RegexMatcher.should_include`: normalize the resolved value, test
`self.regex.match(actual_value) is not None`, and return
`not match if include else match`. -/
def RegexMatcher.should_include (m : RegexMatcher κ) (context : κ) : Bool :=
  let actual_value := m.value_provider.normalize_single_value context m.normalization
  let matched := m.regex.matchFromStart actual_value.data
  if m.inclusion then !matched else matched

/-! ## Interpretations (`src/nodestream/interpreting/swtich_interpretation.py`) -/

/-- Errors raised while interpreting; `UnhandledBranchError(value)` carries the
unresolved switch value. -/
inductive InterpError where
  | unhandledBranch (value : String)
deriving Repr, DecidableEq

/-- An `Interpretation` is polymorphic over `interpret(context)`; children of a
switch are already-compiled interpretations, embedded by their `interpret`
behavior (which may itself fail, e.g. a nested switch). -/
structure Interpretation (κ ω : Type) where
  interpret : κ → Except InterpError ω

/-- `SwitchInterpretation`: the `switch_on` provider, the mapping from case key
to compiled child interpretation (a Python `dict` built from parsed
configuration, so keys are distinct and in configuration order), the optional
compiled default, and the normalization configuration. -/
structure SwitchInterpretation (κ ω : Type) where
  switch_on : ValueProvider κ
  interpretations : List (String × Interpretation κ ω)
  default : Option (Interpretation κ ω)
  normalization : Normalization

/-- Lookup of `value_to_look_for` in the case mapping
(`value_to_look_for not in self.interpretations` /
`self.interpretations[value_to_look_for]`). -/
def SwitchInterpretation.lookupCase (s : SwitchInterpretation κ ω)
    (value : String) : Option (Interpretation κ ω) :=
  s.interpretations.lookup value

/-- `SwitchInterpretation.all_subordinate_components`:
`yield from self.interpretations.values()`, then `yield self.default` if a
default is configured. -/
def SwitchInterpretation.all_subordinate_components
    (s : SwitchInterpretation κ ω) : List (Interpretation κ ω) :=
  s.interpretations.map Prod.snd ++
    match s.default with
    | some d => [d]
    | none => []

/-- `SwitchInterpretation.interpret`: resolve the switch value with
`switch_on.normalize_single_value(context, **self.normalization)`; if it is not
a key of the case mapping, delegate to the default when configured and raise
`UnhandledBranchError(value)` otherwise; else delegate to the case's child. -/
def SwitchInterpretation.interpret (s : SwitchInterpretation κ ω)
    (context : κ) : Except InterpError ω :=
  let value_to_look_for :=
    s.switch_on.normalize_single_value context s.normalization
  match s.lookupCase value_to_look_for with
  | none =>
      match s.default with
      | some d => d.interpret context
      | none => .error (.unhandledBranch value_to_look_for)
  | some child => child.interpret context

/-! ## Progress reporter (`src/nodestream/project/pipeline_progress_reporter.py`) -/

/-- `PipelineProgressReporter` dataclass.  `reporting_frequency` defaults to
`1000`; the `callback` field's default factory is `lambda: None`, so although
annotated `Callable`, a default-constructed reporter holds `None` — embedded as
`Option`.  The logger field only produces log output and is omitted. -/
structure PipelineProgressReporter (ρ : Type) where
  reporting_frequency : Nat := 1000
  callback : Option (Nat → ρ → Unit) := none

/-- A reporter constructed with all dataclass defaults. -/
def PipelineProgressReporter.mkDefault : PipelineProgressReporter ρ := {}

/-- `PipelineProgressReporter.report`: log, then call `self.callback(index,
record)`.  Calling the default `None` raises a `TypeError` at run time,
embedded as `Except`. -/
def PipelineProgressReporter.report (r : PipelineProgressReporter ρ)
    (index : Nat) (record : ρ) : Except PyErr Unit :=
  match r.callback with
  | none => .error .noneNotCallable
  | some f => .ok (f index record)

/-- `PipelineProgressReporter.execute_with_reporting`.  Modelled from the spec
for the parts outside `src/`: `enumerate_async(pipeline.run())` is the
standard zero-based enumeration of the pipeline's finite record stream, which
we embed as a list of records.  For each `(index, record)`,
`if index % self.reporting_frequency == 0: self.report(index, record)`. -/
def PipelineProgressReporter.execute_with_reporting
    (r : PipelineProgressReporter ρ) (records : List ρ) : Except PyErr Unit :=
  records.enum.forM fun (index, record) =>
    if index % r.reporting_frequency == 0 then r.report index record
    else .ok ()

/-! ## Pipeline definitions (`src/nodestream/project/pipeline_definition.py`) -/

/-- A YAML annotation value (`Or(str, int, float, bool)`; floats do not occur
in the claims and are not modelled). -/
inductive AnnotationValue where
  | str (v : String)
  | int (v : Int)
  | bool (v : Bool)
deriving Repr, DecidableEq

/-- Split a character list on a separator character (the pieces between
occurrences of the separator, like Python's `str.split`). -/
def splitOnChar (sep : Char) : List Char → List (List Char)
  | [] => [[]]
  | c :: cs =>
      let rest := splitOnChar sep cs
      if c = sep then [] :: rest
      else
        match rest with
        | [] => [[c]]
        | piece :: pieces => (c :: piece) :: pieces

/-- `pathlib.Path.stem`: the final path component without its last suffix
(a leading dot, as in `.bashrc`, is not a suffix). -/
def pathStem (p : String) : String :=
  let name := (splitOnChar '/' p.data).getLastD []
  let parts := splitOnChar '.' name
  match parts with
  | [] => ⟨name⟩
  | [_] => ⟨name⟩
  | first :: _ :: _ =>
      if first.isEmpty && parts.length == 2 then ⟨name⟩
      else ⟨List.intercalate ['.'] parts.dropLast⟩

/-- `get_default_name(file_path) = file_path.stem`. -/
def get_default_name (file_path : String) : String :=
  pathStem file_path

/-- `PipelineDefinition` dataclass.  Paths are embedded as strings; `targets`
is a Python set of strings, embedded as a list whose order is irrelevant to
the claims. -/
structure PipelineDefinition where
  name : String
  file_path : String
  targets : List String := []
  exclude_inherited_targets : Bool := false
  annotations : List (String × AnnotationValue) := []
deriving Repr, DecidableEq

/-- The mapping form of the YAML file data for a pipeline definition: `path`
is required, every other key optional (`none` = key absent). -/
structure PipelineFileDict where
  path : String
  name : Option String := none
  annotations : Option (List (String × AnnotationValue)) := none
  targets : Option (List String) := none
  exclude_inherited_targets : Option Bool := none
deriving Repr, DecidableEq

/-- File data is either a bare path string or a mapping. -/
inductive PipelineFileData where
  | str (path : String)
  | dict (d : PipelineFileDict)
deriving Repr, DecidableEq

/-- The `exclude_inherited_targets` key of serialized file data, if present. -/
def PipelineFileData.excludeKey : PipelineFileData → Option Bool
  | .str _ => none
  | .dict d => d.exclude_inherited_targets

/-- Python dict merge `{**parent_annotations, **annotations}`: entries of the
second mapping override those of the first. -/
def mergeAnnotations (parent child : List (String × AnnotationValue)) :
    List (String × AnnotationValue) :=
  (parent.filter fun kv => (child.lookup kv.1).isNone) ++ child

/-- `PipelineDefinition.from_file_data`: a bare string is promoted to
`{"path": data}`; each field is popped with its default (`name` defaults to
the stem, `exclude_inherited_targets` to `False`, `annotations` to `{}`,
`targets` to `[]`), and parent annotations are merged under the child's. -/
def PipelineDefinition.from_file_data (data : PipelineFileData)
    (parent_annotations : List (String × AnnotationValue)) :
    PipelineDefinition :=
  let d := match data with
    | .str s => { path := s : PipelineFileDict }
    | .dict d => d
  let file_path := d.path
  let name := d.name.getD (get_default_name file_path)
  let exclude_targets := d.exclude_inherited_targets.getD false
  let annotations := d.annotations.getD []
  let targets := d.targets.getD []
  { name := name
    file_path := file_path
    targets := targets
    exclude_inherited_targets := exclude_targets
    annotations := mergeAnnotations parent_annotations annotations }

/-- `PipelineDefinition.to_file_data`: when the name is the path's stem, the
annotations are empty and `verbose` is off, serialize as the bare path string;
otherwise emit a mapping with `path` and, conditionally, `name`,
`annotations` and `targets`.  No branch ever emits
`exclude_inherited_targets`. -/
def PipelineDefinition.to_file_data (pd : PipelineDefinition)
    (verbose : Bool) : PipelineFileData :=
  let using_default_name := pd.name == pathStem pd.file_path
  if using_default_name && pd.annotations.isEmpty && !verbose then
    .str pd.file_path
  else
    .dict
      { path := pd.file_path
        name := if !using_default_name || verbose then some pd.name else none
        annotations :=
          if !pd.annotations.isEmpty || verbose then some pd.annotations
          else none
        targets :=
          if !pd.targets.isEmpty || verbose then some pd.targets else none }

/-! ## Schema Expansion Coordinator

Modelled from the spec: the `schema` module (the `SchemaExpansionCoordinator`
and `ExpandsSchema` machinery) is not under `src/`; its traversal is specified
as "a generic depth-first walk over `all_subordinate_components` with a
visited-set keyed by node identity", merging each visited node's schema
contribution by union.  Compiled interpretation nodes are identified by ids in
`Fin n`; `children x` enumerates the ids yielded by node `x`'s
`all_subordinate_components` hook. -/

namespace SchemaExpansionCoordinator

variable {n : ℕ}

/-- Modelled from the spec: the coordinator's depth-first walk.  The stack
holds nodes awaiting a visit; a node already in the visited set is skipped,
otherwise it is visited (appended to the output order) and its subordinate
components are pushed. -/
def walk (children : Fin n → List (Fin n)) :
    List (Fin n) → Finset (Fin n) → List (Fin n)
  | [], _ => []
  | x :: stack, visited =>
    if x ∈ visited then walk children stack visited
    else x :: walk children (children x ++ stack) (insert x visited)
termination_by stack visited => (n - visited.card, stack.length)
decreasing_by
  · exact Prod.Lex.right _ (Nat.lt_succ_self _)
  · refine Prod.Lex.left _ _ ?_
    have hlt : visited.card < n := by
      have hle : visited.card ≤ n := by
        simpa using Finset.card_le_univ visited
      rcases Nat.lt_or_ge visited.card n with h | h
      · exact h
      · exfalso
        have hcard : visited.card = Fintype.card (Fin n) := by
          simpa using Nat.le_antisymm hle h
        have huniv : visited = Finset.univ := Finset.eq_univ_of_card visited hcard
        exact ‹x ∉ visited› (huniv ▸ Finset.mem_univ x)
    rw [Finset.card_insert_of_not_mem ‹x ∉ visited›]
    omega

/-- Modelled from the spec: the order in which the coordinator visits the
nodes reachable from a root. -/
def visit_order (children : Fin n → List (Fin n)) (root : Fin n) :
    List (Fin n) :=
  walk children [root] ∅

/-- Modelled from the spec: the coordinator merges the schema contribution of
every visited node into one aggregated schema by union. -/
def expanded_schema [DecidableEq σ] (children : Fin n → List (Fin n))
    (contribution : Fin n → Finset σ) (root : Fin n) : Finset σ :=
  (visit_order children root).foldr (fun x acc => contribution x ∪ acc) ∅

/-- `ReachOutside c V x y`: node `y` is reachable from `x` along `children`
edges through a path all of whose nodes (endpoints included) avoid `V`. -/
inductive ReachOutside (children : Fin n → List (Fin n))
    (V : Finset (Fin n)) : Fin n → Fin n → Prop where
  | refl (x : Fin n) (hx : x ∉ V) : ReachOutside children V x x
  | tail {x y z : Fin n} (hxy : ReachOutside children V x y)
      (hz : z ∈ children y) (hzV : z ∉ V) : ReachOutside children V x z

/-- The start node of an avoiding path is itself outside the avoided set. -/
theorem ReachOutside.start_not_mem {c : Fin n → List (Fin n)}
    {V : Finset (Fin n)} {x y : Fin n} (h : ReachOutside c V x y) : x ∉ V := by
  induction h with
  | refl ha => exact ha
  | tail _ _ _ ih => exact ih

/-- Shrinking the avoided set preserves avoiding reachability. -/
theorem ReachOutside.mono {c : Fin n → List (Fin n)}
    {V W : Finset (Fin n)} {x y : Fin n} (hVW : V ⊆ W)
    (h : ReachOutside c W x y) : ReachOutside c V x y := by
  induction h with
  | refl ha => exact .refl _ fun hv => ha (hVW hv)
  | tail _ hz hzV ih => exact .tail ih hz fun hv => hzV (hVW hv)

/-- Avoiding reachability is transitive. -/
theorem ReachOutside.trans {c : Fin n → List (Fin n)}
    {V : Finset (Fin n)} {x y z : Fin n} (h₁ : ReachOutside c V x y)
    (h₂ : ReachOutside c V y z) : ReachOutside c V x z := by
  induction h₂ with
  | refl _ => exact h₁
  | tail _ hz hzV ih => exact .tail ih hz hzV

/-- An avoiding path may be extended by one edge at its head. -/
theorem ReachOutside.head {c : Fin n → List (Fin n)}
    {V : Finset (Fin n)} {x y z : Fin n} (hx : x ∉ V) (hy : y ∈ c x)
    (h : ReachOutside c V y z) : ReachOutside c V x z :=
  .trans (.tail (.refl x hx) hy h.start_not_mem) h

/-- The walk never revisits: its output is duplicate-free and disjoint from
the incoming visited set. -/
theorem walk_nodup {c : Fin n → List (Fin n)} :
    ∀ (stack : List (Fin n)) (visited : Finset (Fin n)),
      (walk c stack visited).Nodup ∧ ∀ y ∈ walk c stack visited, y ∉ visited := by
  intro stack visited
  induction stack, visited using walk.induct c with
  | case1 visited => simp [walk]
  | case2 x stack visited hmem ih =>
      rw [walk, if_pos hmem]
      exact ih
  | case3 x stack visited hmem ih =>
      rw [walk, if_neg hmem]
      refine ⟨List.nodup_cons.mpr
        ⟨fun hx => (ih.2 x hx) (Finset.mem_insert_self x visited), ih.1⟩, ?_⟩
      intro y hy
      rcases List.mem_cons.mp hy with rfl | hy'
      · exact hmem
      · intro hyv
        exact (ih.2 y hy') (Finset.mem_insert_of_mem hyv)

/-- Every stack entry ends up visited: it is already in the visited set or it
appears in the walk's output. -/
theorem walk_stack_mem {c : Fin n → List (Fin n)} :
    ∀ (stack : List (Fin n)) (visited : Finset (Fin n)) (x : Fin n),
      x ∈ stack → x ∈ visited ∨ x ∈ walk c stack visited := by
  intro stack visited
  induction stack, visited using walk.induct c with
  | case1 visited => simp
  | case2 a stack visited hmem ih =>
      intro x hx
      rw [walk, if_pos hmem]
      rcases List.mem_cons.mp hx with rfl | hx'
      · exact Or.inl hmem
      · exact ih x hx'
  | case3 a stack visited hmem ih =>
      intro x hx
      rw [walk, if_neg hmem]
      rcases List.mem_cons.mp hx with rfl | hx'
      · exact Or.inr (List.mem_cons_self _ _)
      · rcases ih x (List.mem_append_right _ hx') with hv | ho
        · rcases Finset.mem_insert.mp hv with rfl | hv'
          · exact Or.inr (List.mem_cons_self _ _)
          · exact Or.inl hv'
        · exact Or.inr (List.mem_cons_of_mem _ ho)

/-- The set of nodes visited by the walk is closed under children: a child of
a visited node is either already visited on entry or visited too. -/
theorem walk_children_closed {c : Fin n → List (Fin n)} :
    ∀ (stack : List (Fin n)) (visited : Finset (Fin n)) (z : Fin n),
      z ∈ walk c stack visited → ∀ w ∈ c z,
        w ∈ visited ∨ w ∈ walk c stack visited := by
  intro stack visited
  induction stack, visited using walk.induct c with
  | case1 visited => simp [walk]
  | case2 a stack visited hmem ih =>
      rw [walk, if_pos hmem]
      exact ih
  | case3 a stack visited hmem ih =>
      rw [walk, if_neg hmem]
      intro z hz w hw
      have decompose :
          w ∈ insert a visited ∨ w ∈ walk c (c a ++ stack) (insert a visited) →
            w ∈ visited ∨
              w ∈ a :: walk c (c a ++ stack) (insert a visited) := by
        rintro (hv | ho)
        · rcases Finset.mem_insert.mp hv with rfl | hv'
          · exact Or.inr (List.mem_cons_self _ _)
          · exact Or.inl hv'
        · exact Or.inr (List.mem_cons_of_mem _ ho)
      rcases List.mem_cons.mp hz with rfl | hz'
      · exact decompose
          (walk_stack_mem _ _ w (List.mem_append_left _ hw))
      · exact decompose (ih z hz' w hw)

/-- Soundness: every node the walk outputs is reachable from some stack entry
along a path avoiding the incoming visited set. -/
theorem mem_walk_sound {c : Fin n → List (Fin n)} :
    ∀ (stack : List (Fin n)) (visited : Finset (Fin n)) (y : Fin n),
      y ∈ walk c stack visited →
        ∃ x ∈ stack, ReachOutside c visited x y := by
  intro stack visited
  induction stack, visited using walk.induct c with
  | case1 visited => simp [walk]
  | case2 a stack visited hmem ih =>
      rw [walk, if_pos hmem]
      intro y hy
      obtain ⟨x, hx, hr⟩ := ih y hy
      exact ⟨x, List.mem_cons_of_mem _ hx, hr⟩
  | case3 a stack visited hmem ih =>
      rw [walk, if_neg hmem]
      intro y hy
      rcases List.mem_cons.mp hy with rfl | hy'
      · exact ⟨y, List.mem_cons_self _ _, .refl y hmem⟩
      · obtain ⟨z, hz, hr⟩ := ih y hy'
        have hr' : ReachOutside c visited z y :=
          hr.mono (Finset.subset_insert a visited)
        rcases List.mem_append.mp hz with hzc | hzs
        · exact ⟨a, List.mem_cons_self _ _, .head hmem hzc hr'⟩
        · exact ⟨z, List.mem_cons_of_mem _ hzs, hr'⟩

/-- Completeness: every node reachable from a stack entry along a path
avoiding the incoming visited set is output by the walk. -/
theorem mem_walk_complete {c : Fin n → List (Fin n)}
    {stack : List (Fin n)} {visited : Finset (Fin n)} {x y : Fin n}
    (hx : x ∈ stack) (h : ReachOutside c visited x y) :
    y ∈ walk c stack visited := by
  induction h with
  | refl ha =>
      rcases walk_stack_mem stack visited x hx with hv | ho
      · exact absurd hv ha
      · exact ho
  | tail _ hz hzV ih =>
      rcases walk_children_closed stack visited _ ih _ hz with hv | ho
      · exact absurd hv hzV
      · exact ho

/-- Characterization of the walk's output. -/
theorem mem_walk_iff {c : Fin n → List (Fin n)}
    {stack : List (Fin n)} {visited : Finset (Fin n)} {y : Fin n} :
    y ∈ walk c stack visited ↔ ∃ x ∈ stack, ReachOutside c visited x y :=
  ⟨mem_walk_sound stack visited y,
   fun ⟨_, hx, hr⟩ => mem_walk_complete hx hr⟩

/-- Avoiding reachability only depends on which nodes are children of which,
not on the order or multiplicity in the children lists. -/
theorem ReachOutside_congr {c₁ c₂ : Fin n → List (Fin n)}
    (hc : ∀ a b : Fin n, b ∈ c₁ a ↔ b ∈ c₂ a) {V : Finset (Fin n)}
    {x y : Fin n} (h : ReachOutside c₁ V x y) : ReachOutside c₂ V x y := by
  induction h with
  | refl ha => exact .refl _ ha
  | tail _ hz hzV ih => exact .tail ih ((hc _ _).mp hz) hzV

/-- Folding union over a list of contributions is the union over its set of
elements. -/
theorem foldr_union_eq_biUnion [DecidableEq σ] (f : Fin n → Finset σ) :
    ∀ l : List (Fin n),
      l.foldr (fun x acc => f x ∪ acc) ∅ = l.toFinset.biUnion f := by
  intro l
  induction l with
  | nil => simp
  | cons a t ih => simp [ih, Finset.biUnion_insert]

end SchemaExpansionCoordinator

/-! ## Claim theorems -/

/-- Embedding of a concrete filter's predicate as a step predicate: on a data
record it returns the predicate's verdict; a hypothetical call on `Flush` is
embedded as an error, which `process_record`'s short-circuit never triggers. -/
def Filter.lift_predicate (filter_record : ρ → Bool) :
    Item ρ → Except PyErr Bool
  | .data r => .ok (filter_record r)
  | .flush => .error .predicateError

/-- C2: a record processed by a `ValuesMatchPossibilitiesFilter` passes
downstream iff every matcher matches it; `filter_record` returns true (drop)
iff some matcher fails; and removing any single matcher never drops a record
that previously survived. -/
theorem C2_values_match_possibilities_filter {ρ : Type}
    (ms : List (ValueMatcher (ProviderContext ρ))) (r : ρ) :
    (Filter.process_record
        (Filter.lift_predicate
          (ValuesMatchPossibilitiesFilter.filter_record ⟨ms⟩)) (.data r) =
        .ok [.data r] ↔
      ∀ m ∈ ms, m.does_match ⟨r⟩ = true) ∧
    (ValuesMatchPossibilitiesFilter.filter_record ⟨ms⟩ r = true ↔
      ∃ m ∈ ms, m.does_match ⟨r⟩ = false) ∧
    (Filter.process_record
        (Filter.lift_predicate
          (ValuesMatchPossibilitiesFilter.filter_record ⟨ms⟩)) (.data r) =
        .ok [.data r] →
      ∀ i : ℕ,
        Filter.process_record
          (Filter.lift_predicate
            (ValuesMatchPossibilitiesFilter.filter_record ⟨ms.eraseIdx i⟩))
          (.data r) = .ok [.data r]) := by
  have key : ∀ l : List (ValueMatcher (ProviderContext ρ)),
      Filter.process_record
          (Filter.lift_predicate
            (ValuesMatchPossibilitiesFilter.filter_record ⟨l⟩)) (.data r) =
        .ok [.data r] ↔ ∀ m ∈ l, m.does_match ⟨r⟩ = true := by
    intro l
    have step : Filter.process_record
        (Filter.lift_predicate
          (ValuesMatchPossibilitiesFilter.filter_record ⟨l⟩)) (.data r) =
        .ok (if ValuesMatchPossibilitiesFilter.filter_record ⟨l⟩ r
          then [] else [.data r]) := rfl
    rw [step]
    by_cases h : l.all fun m => m.does_match ⟨r⟩
    · simpa [ValuesMatchPossibilitiesFilter.filter_record, h]
        using List.all_eq_true.mp h
    · simp only [ValuesMatchPossibilitiesFilter.filter_record, h,
        Bool.not_false, if_true]
      constructor
      · intro hcontra
        simp at hcontra
      · intro hall
        exact absurd (List.all_eq_true.mpr hall) h
  refine ⟨key ms, ?_, ?_⟩
  · simp only [ValuesMatchPossibilitiesFilter.filter_record,
      Bool.not_eq_true', List.all_eq_false]
    constructor
    · rintro ⟨m, hm, hf⟩
      exact ⟨m, hm, by simpa using hf⟩
    · rintro ⟨m, hm, hf⟩
      exact ⟨m, hm, by simpa using hf⟩
  · intro h i
    refine (key _).mpr ?_
    intro m hm
    exact (key ms).mp h m ((ms.eraseIdx_sublist i).subset hm)

/-- A concrete matcher for the C2 witness: the subject is the record itself
and the single possibility is the literal `"x"`. -/
def xMatcher : ValueMatcher (ProviderContext String) :=
  { value_provider := ⟨fun ctx => ctx.document⟩
    possibilities := [⟨fun _ => "x"⟩]
    normalization := {} }

/-- C2 witness: the record `"x"` survives the filter built from `[xMatcher]`,
and by the theorem it still survives after removing the matcher. -/
theorem C2_values_match_possibilities_filter_witness :
    Filter.process_record
      (Filter.lift_predicate
        (ValuesMatchPossibilitiesFilter.filter_record
          ⟨([xMatcher].eraseIdx 0)⟩)) (.data "x") = .ok [.data "x"] :=
  (C2_values_match_possibilities_filter [xMatcher] "x").2.2 rfl 0

/-- C3: `ExcludeWhenValuesMatchPossibilities` decides the exact logical
negation of the inner `ValuesMatchPossibilitiesFilter` on every record, so a
record is dropped iff all matchers match. -/
theorem C3_exclude_is_exact_negation {ρ : Type}
    (inner : ValuesMatchPossibilitiesFilter ρ) (record : ρ) :
    (ExcludeWhenValuesMatchPossibilities.filter_record ⟨inner⟩ record =
      !(inner.filter_record record)) ∧
    (ExcludeWhenValuesMatchPossibilities.filter_record ⟨inner⟩ record = true ↔
      inner.filter_record record = false) ∧
    (ExcludeWhenValuesMatchPossibilities.filter_record ⟨inner⟩ record = true ↔
      ∀ m ∈ inner.value_matchers, m.does_match ⟨record⟩ = true) := by
  refine ⟨rfl, by simp [ExcludeWhenValuesMatchPossibilities.filter_record], ?_⟩
  simp [ExcludeWhenValuesMatchPossibilities.filter_record,
    ValuesMatchPossibilitiesFilter.filter_record, List.all_eq_true]

/-- C4: `Flush` given to `process_record` is always emitted downstream
unchanged and the filter predicate is never invoked on it (the result is
`[Flush]` for every predicate, including those failing on every input), and
the same holds through any chain of filters. -/
theorem C4_flush_passes_through {ρ ε : Type} :
    (∀ p : Item ρ → Except ε Bool,
      Filter.process_record p .flush = .ok [.flush]) ∧
    (∀ ps : List (Item ρ → Except ε Bool),
      Filter.run_chain ps .flush = .ok [.flush]) := by
  refine ⟨fun p => rfl, ?_⟩
  intro ps
  induction ps with
  | nil => rfl
  | cons p rest ih =>
      have h2 : ([Item.flush] : List (Item ρ)).mapM (Filter.run_chain rest) =
          Except.ok [[Item.flush]] := by
        simp only [List.mapM, List.mapM.loop, ih]
        rfl
      calc Filter.run_chain (p :: rest) (Item.flush : Item ρ)
          = ([Item.flush] : List (Item ρ)).mapM (Filter.run_chain rest) >>=
              fun results => pure results.flatten := rfl
        _ = Except.ok [Item.flush] := by rw [h2]; rfl

/-- C6: `ValueMatcher.does_match` returns true iff some possibility provider's
normalized value equals the normalized subject value, with the matcher's one
normalization configuration applied to the subject and to every
possibility. -/
theorem C6_value_matcher_membership {κ : Type} (m : ValueMatcher κ)
    (context : κ) :
    m.does_match context = true ↔
      ∃ p ∈ m.possibilities,
        p.normalize_single_value context m.normalization =
          m.value_provider.normalize_single_value context m.normalization := by
  simp [ValueMatcher.does_match, List.any_eq_true]

/-- Matching from the start succeeds iff the regex exactly matches some
prefix of the input (so a full-string match is not required). -/
theorem matchFromStart_iff_exists_prefix (r : RE) (s : List Char) :
    r.matchFromStart s = true ↔ ∃ k, r.matchesExact (s.take k) = true := by
  induction s generalizing r with
  | nil => simp [RE.matchFromStart, RE.matchesExact]
  | cons c cs ih =>
      simp only [RE.matchFromStart, Bool.or_eq_true]
      constructor
      · rintro (hn | hm)
        · exact ⟨0, by simpa [RE.matchesExact] using hn⟩
        · obtain ⟨k, hk⟩ := (ih _).mp hm
          exact ⟨k + 1, by simpa [RE.matchesExact] using hk⟩
      · rintro ⟨k, hk⟩
        cases k with
        | zero => exact Or.inl (by simpa [RE.matchesExact] using hk)
        | succ j =>
            exact Or.inr ((ih _).mpr ⟨j, by simpa [RE.matchesExact] using hk⟩)

/-- C5: with `include=True`, `should_include` returns false exactly when the
regex matches the resolved value anchored at the start; with `include=False`
it returns true exactly when the regex so matches; and matching at the start
means the regex exactly matches some prefix of the value, not necessarily the
whole value. -/
theorem C5_regex_matcher_should_include {κ : Type} (m : RegexMatcher κ)
    (context : κ) :
    (m.inclusion = true →
      (m.should_include context = false ↔
        m.regex.matchFromStart
          (m.value_provider.normalize_single_value context
            m.normalization).data = true)) ∧
    (m.inclusion = false →
      (m.should_include context = true ↔
        m.regex.matchFromStart
          (m.value_provider.normalize_single_value context
            m.normalization).data = true)) ∧
    (m.regex.matchFromStart
        (m.value_provider.normalize_single_value context
          m.normalization).data = true ↔
      ∃ k, m.regex.matchesExact
        ((m.value_provider.normalize_single_value context
          m.normalization).data.take k) = true) := by
  refine ⟨?_, ?_, matchFromStart_iff_exists_prefix _ _⟩
  · intro hinc
    simp [RegexMatcher.should_include, hinc]
  · intro hinc
    simp [RegexMatcher.should_include, hinc]

/-- C5 witness: a concrete matcher whose value resolves to `"abc"` and whose
regex is `ab`, with `include=True`: the regex matches at the start (but not
the full string), so `should_include` is false. -/
theorem C5_regex_matcher_should_include_witness :
    (({ value_provider := ⟨fun _ => "abc"⟩
        regex := .cat (.ch 'a') (.ch 'b')
        inclusion := true
        normalization := {} } : RegexMatcher Unit).should_include () = false) ∧
    (RE.cat (.ch 'a') (.ch 'b')).matchesExact "abc".data = false := by
  constructor
  · exact ((C5_regex_matcher_should_include
      ({ value_provider := ⟨fun _ => "abc"⟩
         regex := .cat (.ch 'a') (.ch 'b')
         inclusion := true
         normalization := {} } : RegexMatcher Unit) ()).1 rfl).mpr (by decide)
  · decide

/-- C1: `SwitchInterpretation.interpret` resolves the switch value through
`switch_on` with the configured normalization; if the value is a case key it
returns exactly that case's child result, otherwise the configured default's
result, and with no default it raises `UnhandledBranchError` carrying the
unresolved value. -/
theorem C1_switch_interpretation_dispatch {κ ω : Type}
    (s : SwitchInterpretation κ ω) (context : κ) :
    (∀ child,
      s.lookupCase (s.switch_on.normalize_single_value context
        s.normalization) = some child →
        s.interpret context = child.interpret context) ∧
    (s.lookupCase (s.switch_on.normalize_single_value context
        s.normalization) = none →
      ∀ d, s.default = some d →
        s.interpret context = d.interpret context) ∧
    (s.lookupCase (s.switch_on.normalize_single_value context
        s.normalization) = none →
      s.default = none →
        s.interpret context =
          .error (.unhandledBranch
            (s.switch_on.normalize_single_value context s.normalization))) := by
  refine ⟨?_, ?_, ?_⟩
  · intro child hchild
    simp [SwitchInterpretation.interpret, hchild]
  · intro hnone d hd
    simp [SwitchInterpretation.interpret, hnone, hd]
  · intro hnone hd
    simp [SwitchInterpretation.interpret, hnone, hd]

/-- C1 witness: the spec's dispatch scenario with cases `{"a": X, "b": Y}`.
With the switch value resolving to `"a"`, `X`'s result is returned; resolving
to `"c"` with default `D` present, `D`'s result is returned; resolving to
`"c"` with no default, the unhandled-branch error carrying `"c"` is
raised. -/
theorem C1_switch_interpretation_dispatch_witness :
    (({ switch_on := ⟨fun _ => "a"⟩
        interpretations := [("a", ⟨fun _ => .ok 1⟩), ("b", ⟨fun _ => .ok 2⟩)]
        default := some ⟨fun _ => .ok 3⟩
        normalization := {} } : SwitchInterpretation Unit ℕ).interpret () =
      .ok 1) ∧
    (({ switch_on := ⟨fun _ => "c"⟩
        interpretations := [("a", ⟨fun _ => .ok 1⟩), ("b", ⟨fun _ => .ok 2⟩)]
        default := some ⟨fun _ => .ok 3⟩
        normalization := {} } : SwitchInterpretation Unit ℕ).interpret () =
      .ok 3) ∧
    (({ switch_on := ⟨fun _ => "c"⟩
        interpretations := [("a", ⟨fun _ => .ok 1⟩), ("b", ⟨fun _ => .ok 2⟩)]
        default := none
        normalization := {} } : SwitchInterpretation Unit ℕ).interpret () =
      .error (.unhandledBranch "c")) := by
  refine ⟨?_, ?_, ?_⟩
  · exact (C1_switch_interpretation_dispatch
      ({ switch_on := ⟨fun _ => "a"⟩
         interpretations := [("a", ⟨fun _ => .ok 1⟩), ("b", ⟨fun _ => .ok 2⟩)]
         default := some ⟨fun _ => .ok 3⟩
         normalization := {} } : SwitchInterpretation Unit ℕ) ()).1
      ⟨fun _ => .ok 1⟩ rfl
  · exact (C1_switch_interpretation_dispatch
      ({ switch_on := ⟨fun _ => "c"⟩
         interpretations := [("a", ⟨fun _ => .ok 1⟩), ("b", ⟨fun _ => .ok 2⟩)]
         default := some ⟨fun _ => .ok 3⟩
         normalization := {} } : SwitchInterpretation Unit ℕ) ()).2.1
      rfl ⟨fun _ => .ok 3⟩ rfl
  · exact (C1_switch_interpretation_dispatch
      ({ switch_on := ⟨fun _ => "c"⟩
         interpretations := [("a", ⟨fun _ => .ok 1⟩), ("b", ⟨fun _ => .ok 2⟩)]
         default := none
         normalization := {} } : SwitchInterpretation Unit ℕ) ()).2.2
      rfl rfl

/-- C7: `all_subordinate_components` yields exactly the compiled child of
every case, in mapping order, followed by the default when configured: the
output list is the cases' children followed by the default, every case's
child and the default appear in it, and its length is the number of cases
plus one when a default is configured. -/
theorem C7_all_subordinate_components {κ ω : Type}
    (s : SwitchInterpretation κ ω) :
    (s.all_subordinate_components =
      s.interpretations.map Prod.snd ++ s.default.toList) ∧
    (s.all_subordinate_components.length =
      s.interpretations.length + s.default.toList.length) ∧
    (∀ kc ∈ s.interpretations, kc.2 ∈ s.all_subordinate_components) ∧
    (∀ d, s.default = some d → d ∈ s.all_subordinate_components) := by
  have heq : s.all_subordinate_components =
      s.interpretations.map Prod.snd ++ s.default.toList := by
    cases hd : s.default <;>
      simp [SwitchInterpretation.all_subordinate_components, hd]
  refine ⟨heq, ?_, ?_, ?_⟩
  · simp [heq]
  · intro kc hkc
    rw [heq]
    exact List.mem_append_left _ (List.mem_map_of_mem Prod.snd hkc)
  · intro d hd
    rw [heq]
    exact List.mem_append_right _ (by simp [hd])

/-- C7 witness: a switch with two cases and a default yields exactly the two
case children followed by the default. -/
theorem C7_all_subordinate_components_witness :
    (({ switch_on := ⟨fun _ => "a"⟩
        interpretations := [("a", ⟨fun _ => .ok 1⟩), ("b", ⟨fun _ => .ok 2⟩)]
        default := some ⟨fun _ => .ok 3⟩
        normalization := {} } :
      SwitchInterpretation Unit ℕ).all_subordinate_components.length = 3) ∧
    ((⟨fun _ => .ok 3⟩ : Interpretation Unit ℕ) ∈
      ({ switch_on := ⟨fun _ => "a"⟩
         interpretations := [("a", ⟨fun _ => .ok 1⟩), ("b", ⟨fun _ => .ok 2⟩)]
         default := some ⟨fun _ => .ok 3⟩
         normalization := {} } :
        SwitchInterpretation Unit ℕ).all_subordinate_components) := by
  constructor
  · exact (C7_all_subordinate_components _).2.1
  · exact (C7_all_subordinate_components _).2.2.2 _ rfl

/-- C9: a `PipelineProgressReporter` constructed with all defaults holds
`None` as its callback (the default factory returns `None`), `report` always
fails when it calls `self.callback(index, record)`, and
`execute_with_reporting` fails on any non-empty stream because index `0`
satisfies `index % reporting_frequency == 0` and so triggers `report` on the
very first record. -/
theorem C9_default_reporter_callback_fails {ρ : Type} :
    ((PipelineProgressReporter.mkDefault : PipelineProgressReporter ρ).callback
      = none) ∧
    (∀ (index : ℕ) (record : ρ),
      (PipelineProgressReporter.mkDefault : PipelineProgressReporter ρ).report
        index record = .error .noneNotCallable) ∧
    (∀ records : List ρ, records ≠ [] →
      (PipelineProgressReporter.mkDefault :
        PipelineProgressReporter ρ).execute_with_reporting records =
        .error .noneNotCallable) := by
  refine ⟨rfl, fun _ _ => rfl, ?_⟩
  intro records hne
  cases records with
  | nil => exact absurd rfl hne
  | cons r rest => rfl

/-- C9 witness: the theorem applied to the one-record stream `[()]`. -/
theorem C9_default_reporter_callback_fails_witness :
    (PipelineProgressReporter.mkDefault :
      PipelineProgressReporter Unit).execute_with_reporting [()] =
      .error .noneNotCallable :=
  C9_default_reporter_callback_fails.2.2 [()] (by decide)

/-- C10: when a `PipelineDefinition`'s name equals its path's stem and its
annotations are empty, `to_file_data` without `verbose` collapses to the bare
path string even when `targets` is non-empty or `exclude_inherited_targets`
is true, so deserializing that output restores neither field;
and in every mode `to_file_data` leaves the `exclude_inherited_targets` key
unset, so deserializing its output always yields
`exclude_inherited_targets = false`. -/
theorem C10_to_file_data_loses_targets (pd : PipelineDefinition) :
    (pd.name = pathStem pd.file_path → pd.annotations = [] →
      pd.to_file_data false = .str pd.file_path ∧
      ∀ parent,
        (PipelineDefinition.from_file_data (pd.to_file_data false)
          parent).targets = [] ∧
        (PipelineDefinition.from_file_data (pd.to_file_data false)
          parent).exclude_inherited_targets = false) ∧
    (∀ verbose, (pd.to_file_data verbose).excludeKey = none) ∧
    (∀ verbose parent,
      (PipelineDefinition.from_file_data (pd.to_file_data verbose)
        parent).exclude_inherited_targets = false) := by
  have hkey : ∀ verbose, (pd.to_file_data verbose).excludeKey = none := by
    intro verbose
    rw [PipelineDefinition.to_file_data]
    split
    · rfl
    · rfl
  refine ⟨?_, hkey, ?_⟩
  · intro hname hann
    have hstr : pd.to_file_data false = .str pd.file_path := by
      rw [PipelineDefinition.to_file_data]
      have h1 : (pd.name == pathStem pd.file_path) = true := by
        simpa using hname
      have h2 : pd.annotations.isEmpty = true := by
        simp [hann]
      simp [h1, h2]
    refine ⟨hstr, ?_⟩
    intro parent
    rw [hstr]
    exact ⟨rfl, rfl⟩
  · intro verbose parent
    cases hdata : pd.to_file_data verbose with
    | str s => rfl
    | dict d =>
        have hk := hkey verbose
        rw [hdata] at hk
        have hnone : d.exclude_inherited_targets = none := hk
        show d.exclude_inherited_targets.getD false = false
        rw [hnone]
        rfl

/-- C10 witness: a definition named after its file's stem with empty
annotations but non-empty targets and `exclude_inherited_targets = True`
serializes to the bare path, and the round trip loses both fields. -/
theorem C10_to_file_data_loses_targets_witness :
    ({ name := "pipe", file_path := "pipelines/pipe.yaml",
       targets := ["t1"], exclude_inherited_targets := true,
       annotations := [] } : PipelineDefinition).to_file_data false =
      .str "pipelines/pipe.yaml" ∧
    (PipelineDefinition.from_file_data
      (({ name := "pipe", file_path := "pipelines/pipe.yaml",
          targets := ["t1"], exclude_inherited_targets := true,
          annotations := [] } : PipelineDefinition).to_file_data false)
      []).targets = [] ∧
    (PipelineDefinition.from_file_data
      (({ name := "pipe", file_path := "pipelines/pipe.yaml",
          targets := ["t1"], exclude_inherited_targets := true,
          annotations := [] } : PipelineDefinition).to_file_data false)
      []).exclude_inherited_targets = false := by
  have h := (C10_to_file_data_loses_targets
    { name := "pipe", file_path := "pipelines/pipe.yaml",
      targets := ["t1"], exclude_inherited_targets := true,
      annotations := [] }).1 (by decide) rfl
  exact ⟨h.1, (h.2 []).1, (h.2 []).2⟩

/-- C8: the coordinator's traversal (a total function, hence terminating on
the finite structural tree) visits each distinct compiled node exactly once —
its visit order is duplicate-free and contains exactly the nodes reachable
from the root, however many parents reference them — and the aggregated
schema is identical for any two children enumerations that reference the same
nodes in any order. -/
theorem C8_schema_expansion_visits_once {σ : Type} [DecidableEq σ] {n : ℕ}
    (children₁ children₂ : Fin n → List (Fin n))
    (contribution : Fin n → Finset σ) (root : Fin n) :
    (SchemaExpansionCoordinator.visit_order children₁ root).Nodup ∧
    (∀ y, y ∈ SchemaExpansionCoordinator.visit_order children₁ root ↔
      SchemaExpansionCoordinator.ReachOutside children₁ ∅ root y) ∧
    ((∀ a b : Fin n, b ∈ children₁ a ↔ b ∈ children₂ a) →
      SchemaExpansionCoordinator.expanded_schema children₁ contribution root =
        SchemaExpansionCoordinator.expanded_schema children₂ contribution
          root) := by
  refine ⟨(SchemaExpansionCoordinator.walk_nodup [root] ∅).1, ?_, ?_⟩
  · intro y
    rw [SchemaExpansionCoordinator.visit_order,
      SchemaExpansionCoordinator.mem_walk_iff]
    simp
  · intro hc
    have hsets :
        (SchemaExpansionCoordinator.visit_order children₁ root).toFinset =
          (SchemaExpansionCoordinator.visit_order children₂ root).toFinset := by
      ext y
      simp only [List.mem_toFinset, SchemaExpansionCoordinator.visit_order,
        SchemaExpansionCoordinator.mem_walk_iff]
      constructor
      · rintro ⟨x, hx, hr⟩
        exact ⟨x, hx, SchemaExpansionCoordinator.ReachOutside_congr hc hr⟩
      · rintro ⟨x, hx, hr⟩
        exact ⟨x, hx, SchemaExpansionCoordinator.ReachOutside_congr
          (fun a b => (hc a b).symm) hr⟩
    rw [SchemaExpansionCoordinator.expanded_schema,
      SchemaExpansionCoordinator.expanded_schema,
      SchemaExpansionCoordinator.foldr_union_eq_biUnion,
      SchemaExpansionCoordinator.foldr_union_eq_biUnion, hsets]

/-- The diamond shape of the spec's scenario: the root's two cases reference
two interpretations that both reference the same grandchild. -/
def diamondChildren : Fin 4 → List (Fin 4) := fun i =>
  if i = 0 then [1, 2] else if i = 3 then [] else [3]

/-- The same diamond with the root's two cases enumerated in the other
order. -/
def diamondChildrenSwapped : Fin 4 → List (Fin 4) := fun i =>
  if i = 0 then [2, 1] else if i = 3 then [] else [3]

/-- A schema contribution distinguishing every diamond node. -/
def diamondContribution : Fin 4 → Finset ℕ := fun i => {(i : ℕ)}

/-- C8 witness: on the diamond, traversing the two cases in either order
aggregates the same schema. -/
theorem C8_schema_expansion_visits_once_witness :
    SchemaExpansionCoordinator.expanded_schema diamondChildren
      diamondContribution 0 =
      SchemaExpansionCoordinator.expanded_schema diamondChildrenSwapped
        diamondContribution 0 :=
  (C8_schema_expansion_visits_once diamondChildren diamondChildrenSwapped
    diamondContribution 0).2.2 (by decide)

end Nodestream
